import Mathlib

/-!
Verification development for the David Lynch Collection dashboard's data core
(`data_processing.py` and the ranking step of `visualizations.py`).

The Python code is shallowly embedded: pandas DataFrames become `List Item`,
strings become Lean `String`/`List Char`, Python `int` is `Int`, and the float
estimate average is modelled as `ℚ` (the values involved are integers and
half-integers, which IEEE doubles represent exactly at the data's scale).
Fallible parsing (`int(...)` raising `ValueError`, tuple-unpacking errors)
is modelled with `Option`.

Third-party (pandas) primitives are modelled from their documented behaviour:
`Series.idxmax`/`idxmin` return the first index attaining the extremum;
`Series.value_counts` tallies the unique values in order of first appearance
and sorts by descending count (modelled with a stable sort);
`Series.nlargest`/`nsmallest` with the default keep policy select ties by
earliest position; `Series.str.contains(pat, case=False)` performs a
case-insensitive regular-expression search (`re.search` with `re.IGNORECASE`),
modelled here on the fragment consisting of literal characters and the dot
wildcard.
-/

/-! ## Character and list-of-character helpers (Python string primitives) -/

/-- Python `str.replace(c, "")` for a single character `c`. -/
def removeAll (c : Char) (s : List Char) : List Char :=
  s.filter (fun d => d ≠ c)

/-- Python `str.strip()`: drop whitespace from both ends. -/
def stripChars (s : List Char) : List Char :=
  ((s.dropWhile Char.isWhitespace).reverse.dropWhile Char.isWhitespace).reverse

/-- Python `str.split(sep)` for a single-character separator.
`splitOnChar c s` always returns a non-empty list of chunks. -/
def splitOnChar (c : Char) : List Char → List (List Char)
  | [] => [[]]
  | x :: xs =>
    match splitOnChar c xs with
    | [] => [[]]
    | h :: t => if x = c then [] :: h :: t else (x :: h) :: t

/-- Value of a decimal digit character. -/
def digitVal (c : Char) : Nat := c.toNat - 48

/-- Value of a string of decimal digits, most significant first. -/
def digitsVal (s : List Char) : Nat :=
  s.foldl (fun a c => 10 * a + digitVal c) 0

/-- Non-empty and all decimal digits. -/
def isDigits (s : List Char) : Bool :=
  decide (s ≠ []) && s.all Char.isDigit

/-- Python `int(str)` on the fragment used by the dashboard: optional
whitespace, an optional sign, then ASCII decimal digits.  (Python's `int`
additionally accepts underscore digit grouping and non-ASCII digits; no
dashboard string and no theorem below exercises those.) -/
def pyInt? (s : List Char) : Option Int :=
  match stripChars s with
  | [] => none
  | c :: r =>
    if c = '-' then if isDigits r then some (-(digitsVal r : Int)) else none
    else if c = '+' then if isDigits r then some ((digitsVal r : Int)) else none
    else if isDigits (c :: r) then some ((digitsVal (c :: r) : Int)) else none

/-- Python `str.lower()` (ASCII case folding). -/
def lowerChars (s : List Char) : List Char := s.map Char.toLower

/-- `leadMatch n h` holds when `n` is an initial segment of `h`. -/
def leadMatch : List Char → List Char → Bool
  | [], _ => true
  | _ :: _, [] => false
  | a :: as, b :: bs => a = b && leadMatch as bs

/-- Python substring containment `needle in hay`. -/
def pyInStr (needle hay : List Char) : Bool :=
  hay.tails.any (fun t => leadMatch needle t)

/-! ## Record normalisation (`load_data`, lines 26-47 of `data_processing.py`) -/

/-- One raw JSON record, restricted to the fields `load_data` reads. -/
structure RawRecord where
  soldPrice : String
  estimatedPrice : String
  title : String
  itemURL : String
  itemImage : String
deriving DecidableEq

/-- One normalised row of the DataFrame built by `load_data`.  The derived
`Log Sold Price` column (`np.log10`, display-only colour input) is outside the
embedded fragment: no verified operation reads it. -/
structure Item where
  title : String
  soldPrice : Int
  estimatedLow : Int
  estimatedHigh : Int
  estimateAvg : ℚ
  estimatedPrice : String
  url : String
  image : String
  category : String
deriving DecidableEq

/-- The cleaning pipeline `s.replace("$", "").replace(",", "").strip()`. -/
def cleanMoney (s : String) : List Char :=
  stripChars (removeAll ',' (removeAll '$' s.data))

/-- Line 28: `int(item["Sold Price"].replace("$", "").replace(",", "").strip())`. -/
def parseSoldPrice (s : String) : Option Int :=
  pyInt? (cleanMoney s)

/-- Lines 31-37: clean the estimate string; if a hyphen is present, split on
hyphens — the Python unpacking `est_low, est_high = est_range.split("-")`
raises unless there are exactly two chunks — and parse both sides (each
`.strip()`ped) as integers, averaging as a float; otherwise parse the single
value and use it for low, high and average alike. -/
def parseEstimate (s : String) : Option (Int × Int × ℚ) :=
  let er := cleanMoney s
  if er.contains '-' then
    match splitOnChar '-' er with
    | [a, b] =>
      match pyInt? (stripChars a), pyInt? (stripChars b) with
      | some lo, some hi => some (lo, hi, ((lo : ℚ) + (hi : ℚ)) / 2)
      | _, _ => none
    | _ => none
  else
    match pyInt? er with
    | some v => some (v, v, (v : ℚ))
    | none => none

/-- Lines 84-95: the ordered category keyword table (a Python dict preserves
insertion order). -/
def category_keywords : List (String × List String) :=
  [("Scripts & Screenplays", ["script", "screenplay"]),
   ("Cameras & Camcorders", ["camera", "camcorder"]),
   ("Lighting Equipment", ["light", "lighting"]),
   ("Books & Reference", ["book", "volume", "reference"]),
   ("Posters & Prints", ["poster", "signed poster"]),
   ("Furniture", ["sofa", "chair", "table", "furniture"]),
   ("Coffee & Kitchen", ["mug", "cup", "coffee maker", "espresso"]),
   ("Instruments & Audio", ["guitar", "bass", "keyboard", "drum", "microphone", "audio", "speaker"]),
   ("Records & Music", ["record", "album", "vinyl"]),
   ("Props & Memorabilia", ["prop", "memorabilia", "production slate"])]

/-- Lines 70-103: lowercase the title, scan the keyword table in order and
return the first category one of whose keywords occurs in the title;
fall back to "Other". -/
def detect_category (title : String) : String :=
  let t := lowerChars title.data
  match category_keywords.find? (fun ck => ck.2.any (fun kw => pyInStr kw.data t)) with
  | some ck => ck.1
  | none => "Other"

/-- Normalise one raw record (one iteration of the `for item in data` loop,
plus the `Category` column added on line 62). -/
def mkItem? (r : RawRecord) : Option Item :=
  match parseSoldPrice r.soldPrice, parseEstimate r.estimatedPrice with
  | some sold, some (lo, hi, avg) =>
    some { title := r.title, soldPrice := sold, estimatedLow := lo,
           estimatedHigh := hi, estimateAvg := avg,
           estimatedPrice := r.estimatedPrice, url := r.itemURL,
           image := r.itemImage, category := detect_category r.title }
  | _, _ => none

/-- `load_data`: process every record in input order; a `ValueError` (here:
a `none`) aborts the whole load with no partial result. -/
def load_data (rs : List RawRecord) : Option (List Item) :=
  match rs with
  | [] => some []
  | r :: rest =>
    match mkItem? r, load_data rest with
    | some it, some items => some (it :: items)
    | _, _ => none

/-! ## Keyword search (`Series.str.contains(keyword, case=False, na=False)`)

pandas compiles the pattern with `re.IGNORECASE` and runs `re.search` on each
title (`regex=True` is the default, so the keyword is a regular expression,
not a literal).  We model the regex fragment of literal characters plus the
dot wildcard; patterns using other metacharacters are outside the modelled
fragment and the theorems below restrict keywords accordingly. -/

/-- A token of the modelled regex fragment. -/
inductive RTok where
  | lit (c : Char)
  | anyChar
deriving DecidableEq

/-- The regex metacharacters of Python `re`. -/
def regexMeta : List Char :=
  ['.', '^', '$', '*', '+', '?', '\x7b', '\x7d', '[', ']', '\\', '|', '(', ')']

/-- Parse a pattern consisting of literal characters and dots; any other
metacharacter is outside the modelled fragment. -/
def parseRegex? : List Char → Option (List RTok)
  | [] => some []
  | c :: cs =>
    match parseRegex? cs with
    | none => none
    | some r =>
      if c = '.' then some (RTok.anyChar :: r)
      else if regexMeta.contains c then none
      else some (RTok.lit c :: r)

/-- Token-against-character match under `re.IGNORECASE`; the dot matches any
character except a newline. -/
def rtokMatches (t : RTok) (d : Char) : Bool :=
  match t with
  | RTok.lit c => c.toLower = d.toLower
  | RTok.anyChar => decide (d ≠ '\n')

/-- Match the whole token list at the start of the text. -/
def reMatchHere : List RTok → List Char → Bool
  | [], _ => true
  | _ :: _, [] => false
  | t :: ts, d :: ds => rtokMatches t d && reMatchHere ts ds

/-- `re.search`: a match starting at some position. -/
def reSearch (p : List RTok) (s : List Char) : Bool :=
  s.tails.any (fun t => reMatchHere p t)

/-- Model of `Series.str.contains(pat, case=False, na=False)` applied to one
(string, hence non-NA) title. -/
def pyStrContains (pat s : String) : Bool :=
  match parseRegex? pat.data with
  | some p => reSearch p s.data
  | none => false

/-! ## Filtering (`get_filtered_data`, lines 106-132) -/

/-- Lines 106-132.  The `tuple(sorted(selected_categories))` conversion on
line 113 exists for `st.cache_data` hashing; `isin` only consults membership,
so the embedding keeps the list and uses `contains`.  The keyword filter runs
only when the keyword is truthy (non-empty), the price filter only when a
range is supplied. -/
def get_filtered_data (df : List Item) (selected_categories : List String)
    (keyword : String) (price_filter : Option (Int × Int)) : List Item :=
  let fd := df.filter (fun it => selected_categories.contains it.category)
  let fd :=
    if keyword ≠ "" then fd.filter (fun it => pyStrContains keyword it.title)
    else fd
  match price_filter with
  | some pr =>
    fd.filter (fun it => decide (pr.1 ≤ it.soldPrice) && decide (it.soldPrice ≤ pr.2))
  | none => fd

/-! ## Summary statistics (`calculate_summary_stats`, lines 135-167) -/

/-- The dict returned by `calculate_summary_stats`. -/
structure SummaryStats where
  total_items : Nat
  total_value : Int
  average_price : ℚ
  min_price : Int
  max_price : Int
  most_expensive : Option Item
  cheapest : Option Item
  most_common_category : String
deriving DecidableEq

/-- Minimum of an integer series (used only on non-empty series, as in the
guarded pandas code). -/
def seriesMin : List Int → Int
  | [] => 0
  | x :: xs => xs.foldl min x

/-- Maximum of an integer series. -/
def seriesMax : List Int → Int
  | [] => 0
  | x :: xs => xs.foldl max x

/-- Maximum of a list of naturals. -/
def natMax (l : List Nat) : Nat := l.foldl max 0

/-- Stable insertion: `x` is placed before the first element not strictly
smaller than it, so an element inserted later never overtakes an equal one. -/
def insertBy (lt : α → α → Bool) (x : α) : List α → List α
  | [] => [x]
  | y :: ys => if lt y x then y :: insertBy lt x ys else x :: y :: ys

/-- Stable insertion sort (ascending in `lt`). -/
def isortBy (lt : α → α → Bool) : List α → List α
  | [] => []
  | x :: xs => insertBy lt x (isortBy lt xs)

/-- Unique values of a series in order of first appearance (the order pandas
hash-table tallying presents to the subsequent sort). -/
def uniquesInOrder : List String → List String
  | [] => []
  | c :: cs => c :: (uniquesInOrder cs).filter (fun d => d ≠ c)

/-- Occurrences of `c` in `l`. -/
def countOf (c : String) (l : List String) : Nat :=
  l.countP (fun d => d == c)

/-- Model of `Series.value_counts()`: counts of the unique values, sorted by
descending count with a stable sort (ties keep first-appearance order). -/
def value_counts (l : List String) : List (String × Nat) :=
  isortBy (fun a b => b.2 < a.2)
    ((uniquesInOrder l).map (fun c => (c, countOf c l)))

/-- Maximum of the counts column. -/
def maxSnd (s : List (String × Nat)) : Nat := natMax (s.map (fun p => p.2))

/-- Model of `Series.idxmax` on a counts series: the first index label whose
value equals the maximum. -/
def series_idxmax? (s : List (String × Nat)) : Option String :=
  (s.find? (fun p => p.2 = maxSnd s)).map (fun p => p.1)

/-- Lines 135-167: the empty DataFrame short-circuits to a dict of zeros and
sentinels; otherwise count, sum, float mean, min/max, `df.loc[idxmax]` /
`df.loc[idxmin]` rows (first row attaining the extremum, per the documented
`idxmax`/`idxmin` semantics) and `value_counts().idxmax()`. -/
def calculate_summary_stats (df : List Item) : SummaryStats :=
  if df.isEmpty then
    { total_items := 0, total_value := 0, average_price := 0, min_price := 0,
      max_price := 0, most_expensive := none, cheapest := none,
      most_common_category := "N/A" }
  else
    let prices := df.map Item.soldPrice
    { total_items := df.length
      total_value := prices.sum
      average_price := (prices.sum : ℚ) / (df.length : ℚ)
      min_price := seriesMin prices
      max_price := seriesMax prices
      most_expensive := df.find? (fun it => it.soldPrice == seriesMax prices)
      cheapest := df.find? (fun it => it.soldPrice == seriesMin prices)
      most_common_category :=
        (series_idxmax? (value_counts (df.map Item.category))).getD "N/A" }

/-! ## Ranking helper (`create_horizontal_bar_chart`, lines 56-73 of
`visualizations.py`)

We model the row selection feeding the bar chart (`top_items`).
`nsmallest`/`nlargest` with the default `keep="first"` select ties by earliest
position and return the rows already sorted; a stable full sort followed by
`take n` realises exactly that.  The subsequent `sort_values` re-sorts an
already sorted frame. -/

/-- `df.nsmallest(n, "Sold Price")`. -/
def nsmallestBySold (n : Nat) (df : List Item) : List Item :=
  (isortBy (fun a b => a.soldPrice < b.soldPrice) df).take n

/-- `df.nlargest(n, "Sold Price")`. -/
def nlargestBySold (n : Nat) (df : List Item) : List Item :=
  (isortBy (fun a b => b.soldPrice < a.soldPrice) df).take n

/-- Lines 69-73: the rows of the chart, smallest-first when `ascending`. -/
def create_horizontal_bar_chart (df : List Item) (n_items : Nat)
    (ascending : Bool) : List Item :=
  if ascending then
    isortBy (fun a b => a.soldPrice < b.soldPrice) (nsmallestBySold n_items df)
  else
    isortBy (fun a b => b.soldPrice < a.soldPrice) (nlargestBySold n_items df)

/-! ## Helper lemmas about the filter pipeline -/

/-- The conjunction of the three filter conditions actually applied by
`get_filtered_data` (category membership; keyword match when the keyword is
truthy; bounds when a range is supplied). -/
def codeKeep (cats : List String) (kw : String) (pr : Option (Int × Int))
    (it : Item) : Bool :=
  cats.contains it.category
  && (kw == "" || pyStrContains kw it.title)
  && (match pr with
      | none => true
      | some p => decide (p.1 ≤ it.soldPrice) && decide (it.soldPrice ≤ p.2))

lemma get_filtered_data_eq_filter (df : List Item) (cats : List String)
    (kw : String) (pr : Option (Int × Int)) :
    get_filtered_data df cats kw pr = df.filter (codeKeep cats kw pr) := by
  unfold get_filtered_data codeKeep
  cases pr with
  | none =>
    by_cases h : kw = ""
    · simp [h]
    · simp only [h, ne_eq, not_false_eq_true, if_true, if_pos, List.filter_filter,
        ite_true]
      refine List.filter_congr ?_
      intro x _
      by_cases hc : x.category ∈ cats <;> cases hk : pyStrContains kw x.title <;>
        simp [h, hc, hk]
  | some p =>
    by_cases h : kw = ""
    · simp only [h, ne_eq, not_true_eq_false, if_false, ite_false, List.filter_filter]
      refine List.filter_congr ?_
      intro x _
      by_cases hc : x.category ∈ cats <;> by_cases h1 : p.1 ≤ x.soldPrice <;>
        by_cases h2 : x.soldPrice ≤ p.2 <;> simp [h, hc, h1, h2]
    · simp only [h, ne_eq, not_false_eq_true, if_true, List.filter_filter, ite_true]
      refine List.filter_congr ?_
      intro x _
      by_cases hc : x.category ∈ cats <;> cases hk : pyStrContains kw x.title <;>
        by_cases h1 : p.1 ≤ x.soldPrice <;> by_cases h2 : x.soldPrice ≤ p.2 <;>
        simp [h, hc, hk, h1, h2]

lemma contains_mono {l1 l2 : List String} (h : ∀ c ∈ l1, c ∈ l2) {s : String}
    (hs : l1.contains s = true) : l2.contains s = true := by
  have h1 : s ∈ l1 := by simpa using hs
  simpa using h s h1

lemma contains_eq_of_mem_iff {l1 l2 : List String}
    (h : ∀ c, c ∈ l1 ↔ c ∈ l2) (s : String) :
    l1.contains s = l2.contains s := by
  have e1 : l1.contains s = decide (s ∈ l1) := by simp
  have e2 : l2.contains s = decide (s ∈ l2) := by simp
  rw [e1, e2]
  by_cases hm : s ∈ l1
  · rw [decide_eq_true hm, decide_eq_true ((h s).mp hm)]
  · rw [decide_eq_false hm, decide_eq_false (fun hc => hm ((h s).mpr hc))]

/-! ## Sample data used by the witnesses -/

/-- A normalised script item (the spec's worked example). -/
def itemA : Item :=
  { title := "Signed Script", soldPrice := 1000, estimatedLow := 800,
    estimatedHigh := 1200, estimateAvg := 1000,
    estimatedPrice := "$800 - $1,200", url := "u1", image := "p1",
    category := "Scripts & Screenplays" }

/-- A normalised kitchen item. -/
def itemB : Item :=
  { title := "Coffee Mug", soldPrice := 50, estimatedLow := 50,
    estimatedHigh := 50, estimateAvg := 50, estimatedPrice := "$50",
    url := "u2", image := "p2", category := "Coffee & Kitchen" }

/-- An item whose title matches no category keyword. -/
def itemC : Item :=
  { title := "abc", soldPrice := 7, estimatedLow := 5, estimatedHigh := 9,
    estimateAvg := 7, estimatedPrice := "$5 - $9", url := "u3", image := "p3",
    category := "Other" }

/-! ## C5: aggregation over the empty subset -/

/-- C5: aggregation over an empty subset never fails: it returns the defined
empty result with count 0, sum 0, zeroed price fields, no extremal items and
the sentinel modal category "N/A". -/
theorem C5_empty_stats :
    calculate_summary_stats [] =
      { total_items := 0, total_value := 0, average_price := 0, min_price := 0,
        max_price := 0, most_expensive := none, cheapest := none,
        most_common_category := "N/A" } := rfl

/-! ## C9: monotonicity and idempotence of filtering -/

/-- C9: filtering is monotone — widening the category set, clearing the
keyword, or removing the price range never shrinks the result — and
idempotent: refiltering its own output with the same spec returns the same
list. -/
theorem C9_filter_monotone_idempotent (df : List Item)
    (cats cats' : List String) (kw : String) (pr : Option (Int × Int))
    (hsub : ∀ c ∈ cats, c ∈ cats') :
    get_filtered_data df cats kw pr ⊆ get_filtered_data df cats' kw pr ∧
    get_filtered_data df cats kw pr ⊆ get_filtered_data df cats "" pr ∧
    get_filtered_data df cats kw pr ⊆ get_filtered_data df cats kw none ∧
    get_filtered_data (get_filtered_data df cats kw pr) cats kw pr =
      get_filtered_data df cats kw pr := by
  simp only [get_filtered_data_eq_filter]
  refine ⟨?_, ?_, ?_, ?_⟩
  · intro x hx
    rcases (List.mem_filter).mp hx with ⟨hmem, hkeep⟩
    refine (List.mem_filter).mpr ⟨hmem, ?_⟩
    simp only [codeKeep, Bool.and_eq_true] at hkeep ⊢
    refine ⟨⟨contains_mono hsub hkeep.1.1, hkeep.1.2⟩, hkeep.2⟩
  · intro x hx
    rcases (List.mem_filter).mp hx with ⟨hmem, hkeep⟩
    refine (List.mem_filter).mpr ⟨hmem, ?_⟩
    simp only [codeKeep, Bool.and_eq_true, Bool.or_eq_true] at hkeep ⊢
    exact ⟨⟨hkeep.1.1, Or.inl rfl⟩, hkeep.2⟩
  · intro x hx
    rcases (List.mem_filter).mp hx with ⟨hmem, hkeep⟩
    refine (List.mem_filter).mpr ⟨hmem, ?_⟩
    simp only [codeKeep, Bool.and_eq_true] at hkeep ⊢
    exact ⟨hkeep.1, trivial⟩
  · rw [List.filter_filter]
    refine List.filter_congr ?_
    intro x _
    rw [Bool.and_self]

/-- Witness for C9 at a concrete table and filter spec. -/
theorem C9_filter_monotone_idempotent_witness :
    get_filtered_data [itemA, itemB, itemC] ["Coffee & Kitchen"] "mug"
        (some (0, 100)) ⊆
      get_filtered_data [itemA, itemB, itemC] ["Coffee & Kitchen", "Other"]
        "mug" (some (0, 100)) ∧
    get_filtered_data [itemA, itemB, itemC] ["Coffee & Kitchen"] "mug"
        (some (0, 100)) ⊆
      get_filtered_data [itemA, itemB, itemC] ["Coffee & Kitchen"] ""
        (some (0, 100)) ∧
    get_filtered_data [itemA, itemB, itemC] ["Coffee & Kitchen"] "mug"
        (some (0, 100)) ⊆
      get_filtered_data [itemA, itemB, itemC] ["Coffee & Kitchen"] "mug" none ∧
    get_filtered_data
        (get_filtered_data [itemA, itemB, itemC] ["Coffee & Kitchen"] "mug"
          (some (0, 100)))
        ["Coffee & Kitchen"] "mug" (some (0, 100)) =
      get_filtered_data [itemA, itemB, itemC] ["Coffee & Kitchen"] "mug"
        (some (0, 100)) :=
  C9_filter_monotone_idempotent [itemA, itemB, itemC] ["Coffee & Kitchen"]
    ["Coffee & Kitchen", "Other"] "mug" (some (0, 100)) (by decide)

/-! ## C10: the category filter depends only on the set of selected labels -/

/-- C10: two selected-category lists with the same members (any order, any
duplicates) produce identical filtered output for identical keyword and price
arguments. -/
theorem C10_filter_category_set_invariance (df : List Item)
    (l1 l2 : List String) (kw : String) (pr : Option (Int × Int))
    (h : ∀ c, c ∈ l1 ↔ c ∈ l2) :
    get_filtered_data df l1 kw pr = get_filtered_data df l2 kw pr := by
  rw [get_filtered_data_eq_filter, get_filtered_data_eq_filter]
  refine List.filter_congr ?_
  intro x _
  unfold codeKeep
  rw [contains_eq_of_mem_iff h]

/-- Witness for C10: a permuted list with duplicates selects the same rows. -/
theorem C10_filter_category_set_invariance_witness :
    (∀ c, c ∈ ["Other", "Coffee & Kitchen", "Other"] ↔
      c ∈ ["Coffee & Kitchen", "Other"]) ∧
    get_filtered_data [itemA, itemB, itemC]
        ["Other", "Coffee & Kitchen", "Other"] "" none =
      get_filtered_data [itemA, itemB, itemC] ["Coffee & Kitchen", "Other"]
        "" none :=
  ⟨by intro c; simp only [List.mem_cons, List.not_mem_nil, or_false]; tauto,
   C10_filter_category_set_invariance [itemA, itemB, itemC]
     ["Other", "Coffee & Kitchen", "Other"] ["Coffee & Kitchen", "Other"]
     "" none
     (by intro c; simp only [List.mem_cons, List.not_mem_nil, or_false]; tauto)⟩

/-! ## C2: the category classifier -/

/-- The closed set of 11 category labels (the 10 table labels plus the
fallback). -/
def allLabels : List String :=
  ["Scripts & Screenplays", "Cameras & Camcorders", "Lighting Equipment",
   "Books & Reference", "Posters & Prints", "Furniture", "Coffee & Kitchen",
   "Instruments & Audio", "Records & Music", "Props & Memorabilia", "Other"]

/-- A table entry matches a title when one of its keywords occurs in the
case-folded title. -/
def categoryMatches (ck : String × List String) (title : String) : Bool :=
  ck.2.any (fun kw => pyInStr kw.data (lowerChars title.data))

lemma detect_category_eq_find (t : String) :
    detect_category t =
      (match category_keywords.find? (fun ck => categoryMatches ck t) with
       | some ck => ck.1
       | none => "Other") := rfl

lemma find?_append_cons {α : Type} {p : α → Bool} (pre : List α) (a : α)
    (post : List α) (hpre : ∀ x ∈ pre, p x = false) (ha : p a = true) :
    (pre ++ a :: post).find? p = some a := by
  induction pre with
  | nil => simpa using List.find?_cons_of_pos post ha
  | cons y ys ih =>
    have hy : p y = false := hpre y (by simp)
    rw [List.cons_append, List.find?_cons_of_neg _ (by simp [hy])]
    exact ih (fun x hx => hpre x (by simp [hx]))

/-- C2: category assignment is a deterministic total function of the title:
the case-folded title is scanned against the fixed ordered keyword table and
the first category with a matching keyword wins; a title matching nothing is
assigned "Other"; every title maps into the closed set of 11 labels; equal
titles classify equally. -/
theorem C2_detect_category_first_match (t : String) :
    detect_category t ∈ allLabels ∧
    (∀ t', t = t' → detect_category t = detect_category t') ∧
    (∀ pre ck post, category_keywords = pre ++ ck :: post →
      categoryMatches ck t = true →
      (∀ ck' ∈ pre, categoryMatches ck' t = false) →
      detect_category t = ck.1) ∧
    ((∀ ck ∈ category_keywords, categoryMatches ck t = false) →
      detect_category t = "Other") := by
  refine ⟨?_, ?_, ?_, ?_⟩
  · rw [detect_category_eq_find]
    cases hf : category_keywords.find? (fun ck => categoryMatches ck t) with
    | none => simp [hf, allLabels]
    | some ck =>
      have hm := List.mem_of_find?_eq_some hf
      have hall : ∀ ck ∈ category_keywords, ck.1 ∈ allLabels := by decide
      simp only [hf]
      exact hall ck hm
  · intro t' ht
    rw [ht]
  · intro pre ck post htab hmatch hpre
    rw [detect_category_eq_find, htab,
      find?_append_cons pre ck post hpre hmatch]
  · intro hnone
    rw [detect_category_eq_find,
      List.find?_eq_none.mpr (fun ck hck => by simp [hnone ck hck])]

/-- Witness for C2 at the title "Signed Script": the first table entry
matches, no entry precedes it, and the classifier returns its label. -/
theorem C2_detect_category_first_match_witness :
    categoryMatches ("Scripts & Screenplays", ["script", "screenplay"])
      "Signed Script" = true ∧
    detect_category "Signed Script" = "Scripts & Screenplays" :=
  ⟨by decide,
   (C2_detect_category_first_match "Signed Script").2.2.1 []
     ("Scripts & Screenplays", ["script", "screenplay"]) category_keywords.tail
     rfl (by decide) (by simp)⟩

/-! ## C1: the filter against the spec's substring reading of the keyword -/

/-- The spec's row predicate: category selected, keyword (when non-empty)
contained in the title as a case-insensitive substring, price within the
inclusive range when one is given. -/
def specKeep (cats : List String) (kw : String) (pr : Option (Int × Int))
    (it : Item) : Bool :=
  cats.contains it.category
  && (kw == "" || pyInStr (lowerChars kw.data) (lowerChars it.title.data))
  && (match pr with
      | none => true
      | some p => decide (p.1 ≤ it.soldPrice) && decide (it.soldPrice ≤ p.2))

lemma any_congr_mem {α : Type} {p q : α → Bool} {l : List α}
    (h : ∀ a ∈ l, p a = q a) : l.any p = l.any q := by
  induction l with
  | nil => rfl
  | cons x xs ih =>
    simp only [List.any_cons, h x (by simp), ih (fun a ha => h a (by simp [ha]))]

lemma any_map_eq {α β : Type} (f : α → β) (p : β → Bool) (l : List α) :
    (l.map f).any p = l.any (fun a => p (f a)) := by
  induction l with
  | nil => rfl
  | cons x xs ih => simp [List.any_cons, ih]

lemma parseRegex?_of_lit (l : List Char) (h : ∀ c ∈ l, c ∉ regexMeta) :
    parseRegex? l = some (l.map RTok.lit) := by
  induction l with
  | nil => rfl
  | cons c cs ih =>
    have hc : c ∉ regexMeta := h c (by simp)
    have hdot : ¬ c = '.' := fun e => hc (by rw [e]; decide)
    have hc' : regexMeta.contains c = false := by simpa using hc
    rw [parseRegex?]
    rw [ih (fun x hx => h x (by simp [hx]))]
    simp [hdot, hc', hc]

lemma reMatchHere_lit (n : List Char) :
    ∀ t, reMatchHere (n.map RTok.lit) t = leadMatch (lowerChars n) (lowerChars t) := by
  induction n with
  | nil => intro t; rfl
  | cons c cs ih =>
    intro t
    cases t with
    | nil => rfl
    | cons d ds =>
      simp only [List.map_cons, reMatchHere, rtokMatches, lowerChars,
        leadMatch]
      rw [show List.map Char.toLower cs = lowerChars cs from rfl,
        show List.map Char.toLower ds = lowerChars ds from rfl, ih ds]

lemma reSearch_lit (n s : List Char) :
    reSearch (n.map RTok.lit) s = pyInStr (lowerChars n) (lowerChars s) := by
  unfold reSearch pyInStr
  rw [show lowerChars s = s.map Char.toLower from rfl, List.map_tails,
    any_map_eq]
  exact any_congr_mem (fun t _ => reMatchHere_lit n t)

lemma pyStrContains_of_regexfree (kw s : String)
    (h : ∀ c ∈ kw.data, c ∉ regexMeta) :
    pyStrContains kw s = pyInStr (lowerChars kw.data) (lowerChars s.data) := by
  unfold pyStrContains
  rw [parseRegex?_of_lit kw.data h]
  exact reSearch_lit kw.data s.data

/-- C1 (amended): for keywords containing no regular-expression
metacharacter, `get_filtered_data` returns exactly the ordered subsequence of
rows passing the spec's predicate — category selected, case-insensitive
substring match when the keyword is non-empty, inclusive price bounds when a
range is given — preserving table order. -/
theorem C1_filter_spec_regexfree (df : List Item) (cats : List String)
    (kw : String) (pr : Option (Int × Int))
    (hkw : ∀ c ∈ kw.data, c ∉ regexMeta) :
    get_filtered_data df cats kw pr = df.filter (specKeep cats kw pr) := by
  rw [get_filtered_data_eq_filter]
  refine List.filter_congr ?_
  intro x _
  unfold codeKeep specKeep
  rw [pyStrContains_of_regexfree kw x.title hkw]

/-- Witness for C1 (amended) at a metacharacter-free keyword. -/
theorem C1_filter_spec_regexfree_witness :
    (∀ c ∈ "b".data, c ∉ regexMeta) ∧
    get_filtered_data [itemA, itemB, itemC] ["Coffee & Kitchen", "Other"]
        "b" none =
      List.filter (specKeep ["Coffee & Kitchen", "Other"] "b" none)
        [itemA, itemB, itemC] :=
  ⟨by decide,
   C1_filter_spec_regexfree [itemA, itemB, itemC] ["Coffee & Kitchen", "Other"]
     "b" none (by decide)⟩

/-- Counterexample to C1 as stated: the keyword is passed to pandas as a
regular expression, so the keyword "." matches the title "abc" although "."
is not a substring of it; the filtered output differs from the spec's
substring-predicate subsequence. -/
theorem C1_regex_keyword_counterexample :
    get_filtered_data [itemC] ["Other"] "." none ≠
      List.filter (specKeep ["Other"] "." none) [itemC] := by decide

/-! ## Character-level and cleaning lemmas for the price parsers -/

lemma ws_not_digit (c : Char) (hw : c.isWhitespace = true) : c.isDigit = false := by
  simp only [Char.isWhitespace, Bool.or_eq_true, decide_eq_true_eq,
    or_assoc] at hw
  rcases hw with h | h | h | h <;> subst h <;> decide

lemma digit_not_ws (c : Char) (h : c.isDigit = true) : c.isWhitespace = false := by
  cases hw : c.isWhitespace
  · rfl
  · rw [ws_not_digit c hw] at h; cases h

lemma digit_ne (c : Char) (h : c.isDigit = true) {d : Char}
    (hd : d.isDigit = false) : c ≠ d := by
  intro e; rw [e, hd] at h; cases h

lemma dropWhile_append_of_all (p : Char → Bool) (w l : List Char)
    (hw : ∀ c ∈ w, p c = true) : (w ++ l).dropWhile p = l.dropWhile p := by
  induction w with
  | nil => rfl
  | cons x xs ih =>
    rw [List.cons_append, List.dropWhile_cons]
    simp only [hw x (by simp), if_true]
    exact ih (fun c hc => hw c (by simp [hc]))

lemma dropWhile_cons_false (p : Char → Bool) (x : Char) (xs : List Char)
    (hx : p x = false) : (x :: xs).dropWhile p = x :: xs := by
  rw [List.dropWhile_cons]; simp [hx]

lemma stripChars_sandwich (w1 w2 core : List Char)
    (hw1 : ∀ c ∈ w1, c.isWhitespace = true)
    (hw2 : ∀ c ∈ w2, c.isWhitespace = true)
    (hne : core ≠ [])
    (hhead : ∀ c, core.head? = some c → c.isWhitespace = false)
    (hlast : ∀ c, core.getLast? = some c → c.isWhitespace = false) :
    stripChars (w1 ++ (core ++ w2)) = core := by
  unfold stripChars
  rw [dropWhile_append_of_all _ w1 _ hw1]
  obtain ⟨c0, rest, rfl⟩ : ∃ c0 rest, core = c0 :: rest := by
    cases core with
    | nil => exact absurd rfl hne
    | cons x xs => exact ⟨x, xs, rfl⟩
  rw [List.cons_append, dropWhile_cons_false _ _ _ (hhead c0 rfl),
    ← List.cons_append, List.reverse_append,
    dropWhile_append_of_all _ w2.reverse _
      (fun c hc => hw2 c (List.mem_reverse.mp hc))]
  cases hrev : (c0 :: rest).reverse with
  | nil => simp at hrev
  | cons e rl =>
    have hl : (c0 :: rest).getLast? = some e := by
      rw [← List.head?_reverse, hrev]; rfl
    rw [dropWhile_cons_false _ _ _ (hlast e hl), ← hrev,
      List.reverse_reverse]

lemma stripChars_all_not_ws {l : List Char}
    (h : ∀ c ∈ l, c.isWhitespace = false) : stripChars l = l := by
  cases hl : l with
  | nil => rfl
  | cons x xs =>
    have := stripChars_sandwich [] [] l (by simp) (by simp)
      (by rw [hl]; simp)
      (fun c hc => h c (List.mem_of_mem_head? hc))
      (fun c hc => h c (List.mem_of_mem_getLast? hc))
    simpa [hl] using this

lemma removeAll_cons (c x : Char) (l : List Char) :
    removeAll c (x :: l) =
      if x = c then removeAll c l else x :: removeAll c l := by
  unfold removeAll
  rw [List.filter_cons]
  by_cases e : x = c <;> simp [e]

lemma removeAll_append (c : Char) (l1 l2 : List Char) :
    removeAll c (l1 ++ l2) = removeAll c l1 ++ removeAll c l2 := by
  unfold removeAll
  exact List.filter_append _ _

lemma removeAll_eq_self {c : Char} {l : List Char} (h : ∀ x ∈ l, x ≠ c) :
    removeAll c l = l :=
  List.filter_eq_self.mpr (by intro a ha; simpa using h a ha)

/-! ## Money strings: digits with optional comma grouping -/

/-- The digits of a currency numeral, with the comma separators removed. -/
def moneyDigits (s : List Char) : List Char := removeAll ',' s

/-- A currency numeral body: after removing commas, a non-empty string of
decimal digits. -/
def isMoneyChars (s : List Char) : Bool :=
  decide (moneyDigits s ≠ []) && (moneyDigits s).all Char.isDigit

/-- Numeric value of a currency numeral body. -/
def moneyVal (s : List Char) : Nat := digitsVal (moneyDigits s)

lemma money_facts {a : List Char} (ha : isMoneyChars a = true) :
    moneyDigits a ≠ [] ∧ (∀ c ∈ moneyDigits a, c.isDigit = true) ∧
      (∀ c ∈ a, c = ',' ∨ c.isDigit = true) := by
  unfold isMoneyChars at ha
  rw [Bool.and_eq_true, decide_eq_true_eq, List.all_eq_true] at ha
  obtain ⟨h1, h2⟩ := ha
  refine ⟨h1, h2, ?_⟩
  intro c hc
  by_cases e : c = ','
  · exact Or.inl e
  · refine Or.inr (h2 c ?_)
    unfold moneyDigits removeAll
    exact List.mem_filter.mpr ⟨hc, by simpa using e⟩

lemma money_no_dollar {a : List Char} (ha : isMoneyChars a = true) :
    removeAll '$' a = a := by
  refine removeAll_eq_self ?_
  intro x hx
  rcases (money_facts ha).2.2 x hx with e | hd
  · rw [e]; decide
  · exact digit_ne x hd (by decide)

lemma pyInt?_digits {l : List Char} (hne : l ≠ [])
    (hall : ∀ c ∈ l, c.isDigit = true) :
    pyInt? l = some ((digitsVal l : Nat) : Int) := by
  unfold pyInt?
  rw [stripChars_all_not_ws (fun c hc => digit_not_ws c (hall c hc))]
  cases l with
  | nil => exact absurd rfl hne
  | cons d r =>
    have hd := hall d (by simp)
    have h1 : d ≠ '-' := digit_ne d hd (by decide)
    have h2 : d ≠ '+' := digit_ne d hd (by decide)
    have h3 : isDigits (d :: r) = true := by
      unfold isDigits
      rw [Bool.and_eq_true, decide_eq_true_eq, List.all_eq_true]
      exact ⟨by simp, hall⟩
    simp [h1, h2, h3]

/-! ## Splitting lemmas -/

lemma splitOnChar_ne_nil (c : Char) (l : List Char) : splitOnChar c l ≠ [] := by
  cases l with
  | nil => simp [splitOnChar]
  | cons x xs =>
    unfold splitOnChar
    cases h : splitOnChar c xs with
    | nil => simp
    | cons hh tt => by_cases e : x = c <;> simp [e]

lemma splitOnChar_no_sep {c : Char} {l : List Char} (h : ∀ x ∈ l, x ≠ c) :
    splitOnChar c l = [l] := by
  induction l with
  | nil => rfl
  | cons x xs ih =>
    unfold splitOnChar
    rw [ih (fun y hy => h y (by simp [hy]))]
    simp [h x (by simp)]

lemma splitOnChar_append {c : Char} {u : List Char} (v : List Char)
    (hu : ∀ x ∈ u, x ≠ c) :
    splitOnChar c (u ++ c :: v) = u :: splitOnChar c v := by
  induction u with
  | nil =>
    rw [List.nil_append]
    conv_lhs => rw [splitOnChar]
    cases h : splitOnChar c v with
    | nil => exact absurd h (splitOnChar_ne_nil c v)
    | cons hh tt => simp [h]
  | cons x xs ih =>
    rw [List.cons_append]
    conv_lhs => rw [splitOnChar]
    rw [ih (fun y hy => hu y (by simp [hy]))]
    simp [hu x (by simp)]

/-! ## Evaluation of the parsers on well-formed currency strings -/

lemma cleanMoney_range (a b : List Char) (ha : isMoneyChars a = true)
    (hb : isMoneyChars b = true) :
    cleanMoney (String.mk ('$' :: (a ++ (' ' :: '-' :: ' ' :: '$' :: b)))) =
      moneyDigits a ++ (' ' :: '-' :: ' ' :: moneyDigits b) := by
  obtain ⟨hane, haD, _⟩ := money_facts ha
  obtain ⟨hbne, hbD, _⟩ := money_facts hb
  unfold cleanMoney
  have hdata : (String.mk ('$' :: (a ++ (' ' :: '-' :: ' ' :: '$' :: b)))).data
      = '$' :: (a ++ (' ' :: '-' :: ' ' :: '$' :: b)) := rfl
  rw [hdata]
  have r1 : removeAll '$' ('$' :: (a ++ (' ' :: '-' :: ' ' :: '$' :: b)))
      = a ++ (' ' :: '-' :: ' ' :: b) := by
    rw [removeAll_cons, if_pos rfl, removeAll_append, money_no_dollar ha,
      removeAll_cons, if_neg (by decide), removeAll_cons, if_neg (by decide),
      removeAll_cons, if_neg (by decide), removeAll_cons, if_pos rfl,
      money_no_dollar hb]
  rw [r1]
  have r2 : removeAll ',' (a ++ (' ' :: '-' :: ' ' :: b))
      = moneyDigits a ++ (' ' :: '-' :: ' ' :: moneyDigits b) := by
    rw [removeAll_append, removeAll_cons, if_neg (by decide),
      removeAll_cons, if_neg (by decide), removeAll_cons, if_neg (by decide)]
    rfl
  rw [r2]
  obtain ⟨d0, dd, hda⟩ : ∃ d0 dd, moneyDigits a = d0 :: dd := by
    cases h : moneyDigits a with
    | nil => exact absurd h hane
    | cons x xs => exact ⟨x, xs, rfl⟩
  have := stripChars_sandwich [] []
    (moneyDigits a ++ (' ' :: '-' :: ' ' :: moneyDigits b))
    (by simp) (by simp) (by simp [hda])
    (fun c hc => by
      rw [hda, List.cons_append] at hc
      simp only [List.head?_cons, Option.some.injEq] at hc
      exact digit_not_ws c (haD c (by rw [hda]; simp [← hc])))
    (fun c hc => by
      have h2ne : (' ' :: '-' :: ' ' :: moneyDigits b) ≠ [] := by simp
      rw [List.getLast?_append_of_ne_nil _ h2ne,
        show (' ' :: '-' :: ' ' :: moneyDigits b)
          = [' ', '-', ' '] ++ moneyDigits b from rfl,
        List.getLast?_append_of_ne_nil _ hbne] at hc
      exact digit_not_ws c (hbD c (List.mem_of_mem_getLast? hc)))
  simpa using this

lemma stripChars_money_left {a : List Char} (ha : isMoneyChars a = true) :
    stripChars (moneyDigits a ++ [' ']) = moneyDigits a := by
  obtain ⟨hane, haD, _⟩ := money_facts ha
  have := stripChars_sandwich [] [' '] (moneyDigits a) (by simp)
    (by intro c hc; simp at hc; subst hc; decide) hane
    (fun c hc => digit_not_ws c (haD c (List.mem_of_mem_head? hc)))
    (fun c hc => digit_not_ws c (haD c (List.mem_of_mem_getLast? hc)))
  simpa using this

lemma stripChars_money_right {b : List Char} (hb : isMoneyChars b = true) :
    stripChars (' ' :: moneyDigits b) = moneyDigits b := by
  obtain ⟨hbne, hbD, _⟩ := money_facts hb
  have := stripChars_sandwich [' '] [] (moneyDigits b)
    (by intro c hc; simp at hc; subst hc; decide) (by simp) hbne
    (fun c hc => digit_not_ws c (hbD c (List.mem_of_mem_head? hc)))
    (fun c hc => digit_not_ws c (hbD c (List.mem_of_mem_getLast? hc)))
  simpa using this

lemma estimateRange_eq (a b : List Char) (ha : isMoneyChars a = true)
    (hb : isMoneyChars b = true) :
    parseEstimate (String.mk ('$' :: (a ++ (' ' :: '-' :: ' ' :: '$' :: b)))) =
      some ((moneyVal a : Int), (moneyVal b : Int),
        ((moneyVal a : ℚ) + (moneyVal b : ℚ)) / 2) := by
  obtain ⟨hane, haD, _⟩ := money_facts ha
  obtain ⟨hbne, hbD, _⟩ := money_facts hb
  have hcont : (moneyDigits a ++ (' ' :: '-' :: ' ' :: moneyDigits b)).contains '-'
      = true := by simp
  have hu : ∀ x ∈ moneyDigits a ++ [' '], x ≠ '-' := by
    intro x hx
    rcases List.mem_append.mp hx with h | h
    · exact digit_ne x (haD x h) (by decide)
    · simp at h; subst h; decide
  have hv : ∀ x ∈ ' ' :: moneyDigits b, x ≠ '-' := by
    intro x hx
    rcases List.mem_cons.mp hx with h | h
    · subst h; decide
    · exact digit_ne x (hbD x h) (by decide)
  have hsplit : splitOnChar '-' (moneyDigits a ++ (' ' :: '-' :: ' ' :: moneyDigits b))
      = [moneyDigits a ++ [' '], ' ' :: moneyDigits b] := by
    have e : moneyDigits a ++ (' ' :: '-' :: ' ' :: moneyDigits b)
        = (moneyDigits a ++ [' ']) ++ '-' :: (' ' :: moneyDigits b) := by simp
    rw [e, splitOnChar_append _ hu, splitOnChar_no_sep hv]
  have hpA : pyInt? (stripChars (moneyDigits a ++ [' '])) = some ((moneyVal a : Int)) := by
    rw [stripChars_money_left ha]
    exact pyInt?_digits hane haD
  have hpB : pyInt? (stripChars (' ' :: moneyDigits b)) = some ((moneyVal b : Int)) := by
    rw [stripChars_money_right hb]
    exact pyInt?_digits hbne hbD
  unfold parseEstimate
  simp only [cleanMoney_range a b ha hb, hcont, if_true, hsplit, hpA, hpB]
  rw [Option.some.injEq, Prod.mk.injEq, Prod.mk.injEq]
  refine ⟨rfl, rfl, ?_⟩
  push_cast
  ring

lemma cleanMoney_single (a : List Char) (ha : isMoneyChars a = true) :
    cleanMoney (String.mk ('$' :: a)) = moneyDigits a := by
  obtain ⟨hane, haD, _⟩ := money_facts ha
  unfold cleanMoney
  have hdata : (String.mk ('$' :: a)).data = '$' :: a := rfl
  rw [hdata, removeAll_cons, if_pos rfl, money_no_dollar ha,
    show removeAll ',' a = moneyDigits a from rfl]
  exact stripChars_all_not_ws (fun c hc => digit_not_ws c (haD c hc))

lemma soldPrice_eq (a : List Char) (ha : isMoneyChars a = true) :
    parseSoldPrice (String.mk ('$' :: a)) = some ((moneyVal a : Int)) := by
  obtain ⟨hane, haD, _⟩ := money_facts ha
  unfold parseSoldPrice
  rw [cleanMoney_single a ha]
  exact pyInt?_digits hane haD

lemma estimateSingle_eq (a : List Char) (ha : isMoneyChars a = true) :
    parseEstimate (String.mk ('$' :: a)) =
      some ((moneyVal a : Int), (moneyVal a : Int), ((moneyVal a : Nat) : ℚ)) := by
  obtain ⟨hane, haD, _⟩ := money_facts ha
  have hcont : (moneyDigits a).contains '-' = false := by
    cases h : (moneyDigits a).contains '-'
    · rfl
    · exfalso
      have hm : '-' ∈ moneyDigits a := by simpa using h
      exact digit_ne '-' (haD '-' hm) (by decide) rfl
  have hp : pyInt? (moneyDigits a) = some ((moneyVal a : Int)) :=
    pyInt?_digits hane haD
  unfold parseEstimate
  simp only [cleanMoney_single a ha, hcont, if_false, Bool.false_eq_true, hp]
  norm_cast

/-! ## C3: normalisation of estimate and sold-price strings -/

/-- C3: every estimate string of the form "$A - $B" (each side a
currency-formatted numeral, commas allowed) normalises to low = A, high = B
and average = (A + B) / 2; every single-value estimate "$A" yields
low = high = average = A; and a sold-price string "$A" parses to the plain
integer A. -/
theorem C3_price_normalization (a b : List Char)
    (ha : isMoneyChars a = true) (hb : isMoneyChars b = true) :
    parseEstimate (String.mk ('$' :: (a ++ (' ' :: '-' :: ' ' :: '$' :: b)))) =
      some ((moneyVal a : Int), (moneyVal b : Int),
        ((moneyVal a : ℚ) + (moneyVal b : ℚ)) / 2) ∧
    parseEstimate (String.mk ('$' :: a)) =
      some ((moneyVal a : Int), (moneyVal a : Int), ((moneyVal a : Nat) : ℚ)) ∧
    parseSoldPrice (String.mk ('$' :: a)) = some ((moneyVal a : Int)) :=
  ⟨estimateRange_eq a b ha hb, estimateSingle_eq a ha, soldPrice_eq a ha⟩

/-- Witness for C3 on "$1,234 - $5,678" and "$1,234". -/
theorem C3_price_normalization_witness :
    isMoneyChars "1,234".data = true ∧
    isMoneyChars "5,678".data = true ∧
    parseEstimate (String.mk ('$' :: ("1,234".data ++
        (' ' :: '-' :: ' ' :: '$' :: "5,678".data)))) =
      some ((moneyVal "1,234".data : Int), (moneyVal "5,678".data : Int),
        ((moneyVal "1,234".data : ℚ) + (moneyVal "5,678".data : ℚ)) / 2) ∧
    moneyVal "1,234".data = 1234 ∧
    moneyVal "5,678".data = 5678 ∧
    parseSoldPrice (String.mk ('$' :: "1,234".data)) = some (1234 : Int) :=
  ⟨by decide, by decide,
   (C3_price_normalization "1,234".data "5,678".data (by decide) (by decide)).1,
   by decide, by decide,
   (C3_price_normalization "1,234".data "5,678".data (by decide) (by decide)).2.2⟩

/-! ## C6: the low/high invariant on estimates -/

/-- A raw record whose estimate range is written high-to-low. -/
def rawInverted : RawRecord :=
  { soldPrice := "$100", estimatedPrice := "$800 - $500", title := "abc",
    itemURL := "u", itemImage := "i" }

/-- The item the loader produces for `rawInverted`. -/
def itemInverted : Item :=
  { title := "abc", soldPrice := 100, estimatedLow := 800,
    estimatedHigh := 500, estimateAvg := 650, estimatedPrice := "$800 - $500",
    url := "u", image := "i", category := "Other" }

lemma parseEstimate_inverted :
    parseEstimate rawInverted.estimatedPrice =
      some ((800 : Int), (500 : Int), (650 : ℚ)) := by
  have h := estimateRange_eq "800".data "500".data (by decide) (by decide)
  rw [show String.mk ('$' :: ("800".data ++
      (' ' :: '-' :: ' ' :: '$' :: "500".data)))
    = rawInverted.estimatedPrice from by decide] at h
  rw [h, show moneyVal "800".data = 800 from by decide,
    show moneyVal "500".data = 500 from by decide]
  norm_num

lemma mk_rawInverted : mkItem? rawInverted = some itemInverted := by
  have hS : parseSoldPrice rawInverted.soldPrice = some 100 := by decide
  unfold mkItem?
  rw [hS, parseEstimate_inverted]
  rfl

/-- Counterexample to C6 as stated: the loader accepts the hyphen-joined
estimate "$800 - $500" and stores low = 800, high = 500 without checking or
swapping, so the produced Item violates estimatedLow ≤ estimatedHigh. -/
theorem C6_estimate_inverted_range_counterexample :
    load_data [rawInverted] = some [itemInverted] ∧
    ¬ itemInverted.estimatedLow ≤ itemInverted.estimatedHigh := by
  refine ⟨?_, by decide⟩
  simp [load_data, mk_rawInverted]

/-- C6 (amended): an Item produced by the normaliser satisfies
estimatedLow ≤ estimatedHigh whenever its estimate string is a single
currency value, or a range "$A - $B" whose first value is at most its
second; the code never reorders an inverted range. -/
theorem C6_estimate_low_le_high_ordered (r : RawRecord) (it : Item)
    (a b : List Char) (ha : isMoneyChars a = true) (hb : isMoneyChars b = true)
    (hord : moneyVal a ≤ moneyVal b)
    (hest : r.estimatedPrice =
        String.mk ('$' :: (a ++ (' ' :: '-' :: ' ' :: '$' :: b))) ∨
      r.estimatedPrice = String.mk ('$' :: a))
    (hmk : mkItem? r = some it) :
    it.estimatedLow ≤ it.estimatedHigh := by
  unfold mkItem? at hmk
  cases hsold : parseSoldPrice r.soldPrice with
  | none => rw [hsold] at hmk; cases hmk
  | some s =>
    rcases hest with he | he
    · rw [hsold, he, estimateRange_eq a b ha hb] at hmk
      rw [Option.some.injEq] at hmk
      rw [← hmk]
      show (moneyVal a : Int) ≤ (moneyVal b : Int)
      exact_mod_cast hord
    · rw [hsold, he, estimateSingle_eq a ha] at hmk
      rw [Option.some.injEq] at hmk
      rw [← hmk]

/-- The raw record behind `itemA`. -/
def rawA : RawRecord :=
  { soldPrice := "$1,000", estimatedPrice := "$800 - $1,200",
    title := "Signed Script", itemURL := "u1", itemImage := "p1" }

lemma parseEstimate_rawA :
    parseEstimate rawA.estimatedPrice =
      some ((800 : Int), (1200 : Int), (1000 : ℚ)) := by
  have h := estimateRange_eq "800".data "1,200".data (by decide) (by decide)
  rw [show String.mk ('$' :: ("800".data ++
      (' ' :: '-' :: ' ' :: '$' :: "1,200".data)))
    = rawA.estimatedPrice from by decide] at h
  rw [h, show moneyVal "800".data = 800 from by decide,
    show moneyVal "1,200".data = 1200 from by decide]
  norm_num

lemma mk_rawA : mkItem? rawA = some itemA := by
  have hS : parseSoldPrice rawA.soldPrice = some 1000 := by decide
  unfold mkItem?
  rw [hS, parseEstimate_rawA]
  rfl

/-- Witness for C6 (amended) on the record behind `itemA`. -/
theorem C6_estimate_low_le_high_ordered_witness :
    isMoneyChars "800".data = true ∧
    isMoneyChars "1,200".data = true ∧
    moneyVal "800".data ≤ moneyVal "1,200".data ∧
    mkItem? rawA = some itemA ∧
    itemA.estimatedLow ≤ itemA.estimatedHigh :=
  ⟨by decide, by decide, by decide, mk_rawA,
   C6_estimate_low_le_high_ordered rawA itemA "800".data "1,200".data
     (by decide) (by decide) (by decide) (Or.inl (by decide)) mk_rawA⟩

/-! ## C7: when the load succeeds and when it aborts -/

/-- The condition under which the estimate field parses: after cleaning, a
string containing a hyphen must split into exactly two chunks, each accepted
by `int` after stripping (optional sign, then digits); a hyphen-free string
must itself be accepted by `int`. -/
def estimateOK (s : String) : Bool :=
  let er := cleanMoney s
  if er.contains '-' then
    match splitOnChar '-' er with
    | [a, b] => (pyInt? (stripChars a)).isSome && (pyInt? (stripChars b)).isSome
    | _ => false
  else (pyInt? er).isSome

/-- A record the loader accepts: the cleaned price field parses as an
optionally signed integer, and the estimate field satisfies `estimateOK`. -/
def recordOK (r : RawRecord) : Bool :=
  (pyInt? (cleanMoney r.soldPrice)).isSome && estimateOK r.estimatedPrice

lemma parseEstimate_isSome (s : String) :
    (parseEstimate s).isSome = estimateOK s := by
  simp only [parseEstimate, estimateOK]
  cases hc : (cleanMoney s).contains '-' with
  | false =>
    simp only [hc, Bool.false_eq_true, if_false]
    cases hp : pyInt? (cleanMoney s) <;> simp
  | true =>
    simp only [hc, if_true]
    cases hs : splitOnChar '-' (cleanMoney s) with
    | nil => simp
    | cons x t =>
      cases t with
      | nil => simp
      | cons y t2 =>
        cases t2 with
        | nil =>
          cases h1 : pyInt? (stripChars x) <;>
            cases h2 : pyInt? (stripChars y) <;> simp [h1, h2]
        | cons z t3 => simp

lemma mkItem?_isSome_eq (r : RawRecord) :
    (mkItem? r).isSome = recordOK r := by
  have e : recordOK r = ((parseSoldPrice r.soldPrice).isSome
      && (parseEstimate r.estimatedPrice).isSome) := by
    unfold recordOK parseSoldPrice
    rw [parseEstimate_isSome]
  rw [e]
  unfold mkItem?
  cases h1 : parseSoldPrice r.soldPrice with
  | none => simp
  | some s =>
    cases h2 : parseEstimate r.estimatedPrice with
    | none => simp
    | some p =>
      obtain ⟨lo, hi, avg⟩ := p
      simp

lemma load_data_isSome_iff (rs : List RawRecord) :
    (load_data rs).isSome = true ↔ ∀ r ∈ rs, (mkItem? r).isSome = true := by
  induction rs with
  | nil => simp [load_data]
  | cons r rest ih =>
    simp only [load_data]
    cases h1 : mkItem? r with
    | none => simp [h1]
    | some it =>
      cases h2 : load_data rest with
      | none => simp [h1, h2, ← ih]
      | some items => simp [h1, h2, ← ih]

lemma load_data_forall2 (rs : List RawRecord) (l : List Item)
    (h : load_data rs = some l) :
    List.Forall₂ (fun r it => mkItem? r = some it) rs l := by
  induction rs generalizing l with
  | nil =>
    simp only [load_data, Option.some.injEq] at h
    subst h
    exact List.Forall₂.nil
  | cons r rest ih =>
    simp only [load_data] at h
    cases h1 : mkItem? r with
    | none => rw [h1] at h; cases h
    | some it =>
      rw [h1] at h
      cases h2 : load_data rest with
      | none => rw [h2] at h; cases h
      | some items =>
        rw [h2] at h
        rw [Option.some.injEq] at h
        subst h
        exact List.Forall₂.cons h1 (ih items h2)

/-- A raw record with a signed sold price. -/
def rawSigned : RawRecord :=
  { soldPrice := "$-5", estimatedPrice := "$5", title := "abc",
    itemURL := "u", itemImage := "i" }

/-- The item the loader produces for `rawSigned`. -/
def itemSigned : Item :=
  { title := "abc", soldPrice := -5, estimatedLow := 5, estimatedHigh := 5,
    estimateAvg := 5, estimatedPrice := "$5", url := "u", image := "i",
    category := "Other" }

/-- Counterexample to C7 as stated: the sold price "$-5" strips to "-5",
which is not purely numeric, so the claim requires the load to fail; but
Python `int` accepts a leading sign, and the load succeeds. -/
theorem C7_signed_price_counterexample :
    load_data [rawSigned] = some [itemSigned] ∧
    (cleanMoney rawSigned.soldPrice).all Char.isDigit = false := by decide

/-- C7 (amended): the load succeeds if and only if every record is accepted
— the cleaned price parses as an optionally signed integer and the estimate
satisfies `estimateOK` (hyphen present: exactly two parsable chunks;
otherwise: itself parsable).  On success it produces exactly one Item per
input record, in input order. -/
theorem C7_load_success_iff (rs : List RawRecord) :
    ((load_data rs).isSome = true ↔ ∀ r ∈ rs, recordOK r = true) ∧
    (∀ l, load_data rs = some l →
      l.length = rs.length ∧
      List.Forall₂ (fun r it => mkItem? r = some it) rs l) := by
  constructor
  · rw [load_data_isSome_iff]
    constructor
    · intro h r hr
      rw [← mkItem?_isSome_eq]
      exact h r hr
    · intro h r hr
      rw [mkItem?_isSome_eq]
      exact h r hr
  · intro l h
    have h2 := load_data_forall2 rs l h
    exact ⟨(List.Forall₂.length_eq h2).symm, h2⟩

/-- Witness for C7 at a one-record table. -/
theorem C7_load_success_iff_witness :
    ((load_data [rawSigned]).isSome = true ↔
      ∀ r ∈ [rawSigned], recordOK r = true) ∧
    ([itemSigned] : List Item).length = ([rawSigned] : List RawRecord).length ∧
    List.Forall₂ (fun r it => mkItem? r = some it) [rawSigned] [itemSigned] :=
  ⟨(C7_load_success_iff [rawSigned]).1,
   (C7_load_success_iff [rawSigned]).2 [itemSigned] (by decide)⟩

/-! ## Stable insertion sort: permutation, sortedness, stability -/

lemma insertBy_perm {α : Type} (lt : α → α → Bool) (x : α) (l : List α) :
    List.Perm (insertBy lt x l) (x :: l) := by
  induction l with
  | nil => exact List.Perm.refl _
  | cons y ys ih =>
    unfold insertBy
    by_cases h : lt y x = true
    · simp only [h, if_true]
      exact (ih.cons y).trans (List.Perm.swap x y ys)
    · simp only [h, if_false, Bool.false_eq_true]
      exact List.Perm.refl _

lemma isortBy_perm {α : Type} (lt : α → α → Bool) (l : List α) :
    List.Perm (isortBy lt l) l := by
  induction l with
  | nil => exact List.Perm.refl _
  | cons x xs ih =>
    unfold isortBy
    exact (insertBy_perm lt x (isortBy lt xs)).trans (ih.cons x)

lemma insertBy_pairwise {α : Type} (lt : α → α → Bool)
    (hasymm : ∀ a b, lt a b = true → lt b a = false)
    (htrans : ∀ a b c, lt b a = false → lt c b = false → lt c a = false)
    (x : α) (l : List α) (h : List.Pairwise (fun a b => lt b a = false) l) :
    List.Pairwise (fun a b => lt b a = false) (insertBy lt x l) := by
  induction l with
  | nil => simp [insertBy]
  | cons y ys ih =>
    unfold insertBy
    by_cases hxy : lt y x = true
    · simp only [hxy, if_true]
      rw [List.pairwise_cons] at h ⊢
      obtain ⟨hy, hys⟩ := h
      refine ⟨?_, ih hys⟩
      intro z hz
      rcases List.mem_cons.mp ((insertBy_perm lt x ys).mem_iff.mp hz) with e | e
      · subst e; exact hasymm y z hxy
      · exact hy z e
    · have hxy' : lt y x = false := by
        cases hb : lt y x
        · rfl
        · exact absurd hb hxy
      simp only [hxy', if_false, Bool.false_eq_true]
      rw [List.pairwise_cons]
      refine ⟨?_, h⟩
      intro z hz
      rcases List.mem_cons.mp hz with e | e
      · subst e; exact hxy'
      · exact htrans x y z hxy' ((List.pairwise_cons.mp h).1 z e)

lemma isortBy_pairwise {α : Type} (lt : α → α → Bool)
    (hasymm : ∀ a b, lt a b = true → lt b a = false)
    (htrans : ∀ a b c, lt b a = false → lt c b = false → lt c a = false)
    (l : List α) :
    List.Pairwise (fun a b => lt b a = false) (isortBy lt l) := by
  induction l with
  | nil => simp [isortBy]
  | cons x xs ih =>
    unfold isortBy
    exact insertBy_pairwise lt hasymm htrans x _ ih

lemma isortBy_eq_of_sorted {α : Type} (lt : α → α → Bool) (l : List α)
    (h : List.Pairwise (fun a b => lt b a = false) l) :
    isortBy lt l = l := by
  induction l with
  | nil => rfl
  | cons x xs ih =>
    unfold isortBy
    rw [ih (List.Pairwise.of_cons h)]
    cases xs with
    | nil => rfl
    | cons y ys =>
      unfold insertBy
      rw [(List.pairwise_cons.mp h).1 y (by simp)]
      simp

lemma insertBy_congr_firstidx {α : Type} (lt1 lt2 : α → α → Bool)
    (idx : α → Nat) (hcond : ∀ a b, idx b < idx a → lt2 a b = lt1 a b)
    (x : α) (l : List α) (hidx : ∀ y ∈ l, idx x < idx y) :
    insertBy lt1 x l = insertBy lt2 x l := by
  induction l with
  | nil => rfl
  | cons y ys ih =>
    unfold insertBy
    rw [hcond y x (hidx y (by simp))]
    by_cases h : lt1 y x = true
    · simp only [h, if_true]
      rw [ih (fun z hz => hidx z (by simp [hz]))]
    · have h' : lt1 y x = false := by
        cases hb : lt1 y x
        · rfl
        · exact absurd hb h
      simp only [h', if_false, Bool.false_eq_true]

lemma isortBy_congr_firstidx {α : Type} (lt1 lt2 : α → α → Bool)
    (idx : α → Nat) (hcond : ∀ a b, idx b < idx a → lt2 a b = lt1 a b)
    (l : List α) (hidx : List.Pairwise (fun a b => idx a < idx b) l) :
    isortBy lt1 l = isortBy lt2 l := by
  induction l with
  | nil => rfl
  | cons x xs ih =>
    unfold isortBy
    rw [ih (List.Pairwise.of_cons hidx)]
    exact insertBy_congr_firstidx lt1 lt2 idx hcond x _
      (fun y hy => (List.pairwise_cons.mp hidx).1 y
        ((isortBy_perm lt2 xs).mem_iff.mp hy))

lemma pairwise_fst_enum {α : Type} (l : List α) :
    List.Pairwise (fun a b : Nat × α => a.1 < b.1) l.enum := by
  rw [List.pairwise_iff_getElem]
  intro i j hi hj hij
  simp only [List.getElem_enum]
  simpa using hij

/-! ## Fold-based extrema -/

lemma foldl_max_mem {β : Type} [LinearOrder β] (a : β) (xs : List β) :
    xs.foldl max a ∈ a :: xs := by
  induction xs generalizing a with
  | nil => simp
  | cons x xs ih =>
    simp only [List.foldl_cons]
    rcases List.mem_cons.mp (ih (max a x)) with h | h
    · rcases max_choice a x with e | e <;> rw [e] at h ⊢ <;> simp [h]
    · simp [h]

lemma foldl_max_bounds {β : Type} [LinearOrder β] (a : β) (xs : List β) :
    a ≤ xs.foldl max a ∧ ∀ x ∈ xs, x ≤ xs.foldl max a := by
  induction xs generalizing a with
  | nil => simp
  | cons x xs ih =>
    simp only [List.foldl_cons]
    obtain ⟨h1, h2⟩ := ih (max a x)
    refine ⟨le_trans (le_max_left a x) h1, ?_⟩
    intro y hy
    rcases List.mem_cons.mp hy with e | e
    · rw [e]; exact le_trans (le_max_right a x) h1
    · exact h2 y e

lemma foldl_min_mem {β : Type} [LinearOrder β] (a : β) (xs : List β) :
    xs.foldl min a ∈ a :: xs := by
  induction xs generalizing a with
  | nil => simp
  | cons x xs ih =>
    simp only [List.foldl_cons]
    rcases List.mem_cons.mp (ih (min a x)) with h | h
    · rcases min_choice a x with e | e <;> rw [e] at h ⊢ <;> simp [h]
    · simp [h]

lemma foldl_min_bounds {β : Type} [LinearOrder β] (a : β) (xs : List β) :
    xs.foldl min a ≤ a ∧ ∀ x ∈ xs, xs.foldl min a ≤ x := by
  induction xs generalizing a with
  | nil => simp
  | cons x xs ih =>
    simp only [List.foldl_cons]
    obtain ⟨h1, h2⟩ := ih (min a x)
    refine ⟨le_trans h1 (min_le_left a x), ?_⟩
    intro y hy
    rcases List.mem_cons.mp hy with e | e
    · rw [e]; exact le_trans h1 (min_le_right a x)
    · exact h2 y e

lemma seriesMax_mem (l : List Int) (h : l ≠ []) : seriesMax l ∈ l := by
  cases l with
  | nil => exact absurd rfl h
  | cons x xs => exact foldl_max_mem x xs

lemma le_seriesMax (l : List Int) (x : Int) (hx : x ∈ l) : x ≤ seriesMax l := by
  cases l with
  | nil => cases hx
  | cons y ys =>
    rcases List.mem_cons.mp hx with e | e
    · subst e; exact (foldl_max_bounds x ys).1
    · exact (foldl_max_bounds y ys).2 x e

lemma seriesMin_mem (l : List Int) (h : l ≠ []) : seriesMin l ∈ l := by
  cases l with
  | nil => exact absurd rfl h
  | cons x xs => exact foldl_min_mem x xs

lemma seriesMin_le (l : List Int) (x : Int) (hx : x ∈ l) : seriesMin l ≤ x := by
  cases l with
  | nil => cases hx
  | cons y ys =>
    rcases List.mem_cons.mp hx with e | e
    · subst e; exact (foldl_min_bounds x ys).1
    · exact (foldl_min_bounds y ys).2 x e

lemma le_natMax (l : List Nat) (x : Nat) (hx : x ∈ l) : x ≤ natMax l :=
  (foldl_max_bounds 0 l).2 x hx

lemma natMax_mem (l : List Nat) (h : l ≠ []) : natMax l ∈ l := by
  rcases List.mem_cons.mp (foldl_max_mem 0 l) with e | e
  · cases l with
    | nil => exact absurd rfl h
    | cons x xs =>
      have e' : natMax (x :: xs) = 0 := e
      have hx : x ≤ natMax (x :: xs) := le_natMax _ x (by simp)
      rw [e'] at hx
      have hx0 : x = 0 := Nat.le_zero.mp hx
      rw [e', ← hx0]
      simp
  · exact e

lemma natMax_le (l : List Nat) (b : Nat) (h : ∀ x ∈ l, x ≤ b) : natMax l ≤ b := by
  rcases List.mem_cons.mp (foldl_max_mem 0 l) with e | e
  · rw [natMax, e]; exact Nat.zero_le b
  · exact h _ e

lemma natMax_eq_of_mem_iff {l1 l2 : List Nat} (h : ∀ x, x ∈ l1 ↔ x ∈ l2) :
    natMax l1 = natMax l2 :=
  le_antisymm
    (natMax_le l1 (natMax l2) (fun x hx => le_natMax l2 x ((h x).mp hx)))
    (natMax_le l2 (natMax l1) (fun x hx => le_natMax l1 x ((h x).mpr hx)))

lemma natMax_cons (a : Nat) (l : List Nat) : natMax (a :: l) = max a (natMax l) := by
  apply le_antisymm
  · refine natMax_le _ _ ?_
    intro x hx
    rcases List.mem_cons.mp hx with e | e
    · subst e; exact le_max_left _ _
    · exact le_trans (le_natMax l x e) (le_max_right _ _)
  · rw [max_le_iff]
    exact ⟨le_natMax _ a (by simp), natMax_le _ _
      (fun x hx => le_natMax _ x (by simp [hx]))⟩

/-! ## C8: the ranking helper against the spec's selection -/

/-- Display order for "top N largest": higher price first, ties by original
position. -/
def ltLexLargest (a b : Nat × Item) : Bool :=
  decide (b.2.soldPrice < a.2.soldPrice) ||
    (decide (a.2.soldPrice = b.2.soldPrice) && decide (a.1 < b.1))

/-- Display order for "top N smallest": lower price first, ties by original
position. -/
def ltLexSmallest (a b : Nat × Item) : Bool :=
  decide (a.2.soldPrice < b.2.soldPrice) ||
    (decide (a.2.soldPrice = b.2.soldPrice) && decide (a.1 < b.1))

/-- The spec's ranking: index the table by original position, arrange by
price extremity with ties broken by original position, keep the first
`n` and drop the indices. -/
def specTopN (df : List Item) (n : Nat) (ascending : Bool) : List Item :=
  ((isortBy (if ascending then ltLexSmallest else ltLexLargest)
      df.enum).take n).map Prod.snd

lemma map_snd_insertBy (lt : Item → Item → Bool) (x : Nat × Item)
    (l : List (Nat × Item)) :
    List.map Prod.snd (insertBy (fun a b : Nat × Item => lt a.2 b.2) x l)
      = insertBy lt x.2 (List.map Prod.snd l) := by
  induction l with
  | nil => rfl
  | cons y ys ih =>
    unfold insertBy
    by_cases h : lt y.2 x.2 = true <;> simp [h, ih]

lemma map_snd_isortBy (lt : Item → Item → Bool) (l : List (Nat × Item)) :
    List.map Prod.snd (isortBy (fun a b : Nat × Item => lt a.2 b.2) l)
      = isortBy lt (List.map Prod.snd l) := by
  induction l with
  | nil => rfl
  | cons x xs ih =>
    rw [List.map_cons]
    unfold isortBy
    rw [map_snd_insertBy, ih]

lemma ltDesc_asymm : ∀ a b : Item,
    (fun a b : Item => decide (b.soldPrice < a.soldPrice)) a b = true →
    (fun a b : Item => decide (b.soldPrice < a.soldPrice)) b a = false := by
  intro a b h
  simp only [decide_eq_true_eq] at h
  simpa using not_lt_of_gt h

lemma ltDesc_trans : ∀ a b c : Item,
    (fun a b : Item => decide (b.soldPrice < a.soldPrice)) b a = false →
    (fun a b : Item => decide (b.soldPrice < a.soldPrice)) c b = false →
    (fun a b : Item => decide (b.soldPrice < a.soldPrice)) c a = false := by
  intro a b c h1 h2
  simp only [decide_eq_false_iff_not, not_lt] at h1 h2 ⊢
  exact le_trans h2 h1

lemma ltAsc_asymm : ∀ a b : Item,
    (fun a b : Item => decide (a.soldPrice < b.soldPrice)) a b = true →
    (fun a b : Item => decide (a.soldPrice < b.soldPrice)) b a = false := by
  intro a b h
  simp only [decide_eq_true_eq] at h
  simpa using not_lt_of_gt h

lemma ltAsc_trans : ∀ a b c : Item,
    (fun a b : Item => decide (a.soldPrice < b.soldPrice)) b a = false →
    (fun a b : Item => decide (a.soldPrice < b.soldPrice)) c b = false →
    (fun a b : Item => decide (a.soldPrice < b.soldPrice)) c a = false := by
  intro a b c h1 h2
  simp only [decide_eq_false_iff_not, not_lt] at h1 h2 ⊢
  exact le_trans h1 h2

lemma create_hbar_false_eq_take (df : List Item) (n : Nat) :
    create_horizontal_bar_chart df n false
      = (isortBy (fun a b : Item => decide (b.soldPrice < a.soldPrice)) df).take n := by
  unfold create_horizontal_bar_chart nlargestBySold
  simp only [Bool.false_eq_true, if_false]
  exact isortBy_eq_of_sorted _ _
    ((isortBy_pairwise _ ltDesc_asymm ltDesc_trans df).sublist
      (List.take_sublist n _))

lemma create_hbar_true_eq_take (df : List Item) (n : Nat) :
    create_horizontal_bar_chart df n true
      = (isortBy (fun a b : Item => decide (a.soldPrice < b.soldPrice)) df).take n := by
  unfold create_horizontal_bar_chart nsmallestBySold
  simp only [if_true]
  exact isortBy_eq_of_sorted _ _
    ((isortBy_pairwise _ ltAsc_asymm ltAsc_trans df).sublist
      (List.take_sublist n _))

lemma isort_desc_eq_lex (df : List Item) :
    isortBy (fun a b : Item => decide (b.soldPrice < a.soldPrice)) df
      = List.map Prod.snd (isortBy ltLexLargest df.enum) := by
  have h1 := map_snd_isortBy
    (fun a b : Item => decide (b.soldPrice < a.soldPrice)) df.enum
  rw [List.enum_map_snd] at h1
  rw [← h1]
  congr 1
  refine isortBy_congr_firstidx _ ltLexLargest Prod.fst ?_ df.enum
    (pairwise_fst_enum df)
  intro a b h
  unfold ltLexLargest
  rw [decide_eq_false (Nat.lt_asymm h), Bool.and_false, Bool.or_false]

lemma isort_asc_eq_lex (df : List Item) :
    isortBy (fun a b : Item => decide (a.soldPrice < b.soldPrice)) df
      = List.map Prod.snd (isortBy ltLexSmallest df.enum) := by
  have h1 := map_snd_isortBy
    (fun a b : Item => decide (a.soldPrice < b.soldPrice)) df.enum
  rw [List.enum_map_snd] at h1
  rw [← h1]
  congr 1
  refine isortBy_congr_firstidx _ ltLexSmallest Prod.fst ?_ df.enum
    (pairwise_fst_enum df)
  intro a b h
  unfold ltLexSmallest
  rw [decide_eq_false (Nat.lt_asymm h), Bool.and_false, Bool.or_false]

lemma specTopN_length (df : List Item) (n : Nat) (asc : Bool) :
    (specTopN df n asc).length = min n df.length := by
  unfold specTopN
  rw [List.length_map, List.length_take, (isortBy_perm _ _).length_eq,
    List.enum_length]

/-- C8: for every table, every N and each direction, the bar-chart helper
returns exactly the spec's ranking — the N extreme-priced items, ties broken
by original table order, arranged descending for "largest" and ascending for
"smallest" — returning all items when the table has fewer than N, with the
output sorted by soldPrice in the display direction. -/
theorem C8_ranking_helper (df : List Item) (n : Nat) (ascending : Bool) :
    create_horizontal_bar_chart df n ascending = specTopN df n ascending ∧
    (create_horizontal_bar_chart df n ascending).length = min n df.length ∧
    List.Pairwise
      (fun a b : Item => if ascending = true then a.soldPrice ≤ b.soldPrice
        else b.soldPrice ≤ a.soldPrice)
      (create_horizontal_bar_chart df n ascending) := by
  cases ascending with
  | false =>
    have heq : create_horizontal_bar_chart df n false = specTopN df n false := by
      rw [create_hbar_false_eq_take, isort_desc_eq_lex]
      unfold specTopN
      simp only [Bool.false_eq_true, if_false]
      exact (List.map_take _ _ _).symm
    refine ⟨heq, ?_, ?_⟩
    · rw [heq, specTopN_length]
    · rw [create_hbar_false_eq_take]
      have hs := (isortBy_pairwise _ ltDesc_asymm ltDesc_trans df).sublist
        (List.take_sublist n
          (isortBy (fun a b : Item => decide (b.soldPrice < a.soldPrice)) df))
      refine hs.imp ?_
      intro a b h
      simp only [decide_eq_false_iff_not, not_lt] at h
      simpa using h
  | true =>
    have heq : create_horizontal_bar_chart df n true = specTopN df n true := by
      rw [create_hbar_true_eq_take, isort_asc_eq_lex]
      unfold specTopN
      simp only [if_true]
      exact (List.map_take _ _ _).symm
    refine ⟨heq, ?_, ?_⟩
    · rw [heq, specTopN_length]
    · rw [create_hbar_true_eq_take]
      have hs := (isortBy_pairwise _ ltAsc_asymm ltAsc_trans df).sublist
        (List.take_sublist n
          (isortBy (fun a b : Item => decide (a.soldPrice < b.soldPrice)) df))
      refine hs.imp ?_
      intro a b h
      simp only [decide_eq_false_iff_not, not_lt] at h
      simpa using h

/-! ## First-appearance uniques and the modal category -/

lemma find?_map_eq {α β : Type} (p : β → Bool) (f : α → β) (l : List α) :
    (l.map f).find? p = Option.map f (l.find? (fun a => p (f a))) := by
  induction l with
  | nil => rfl
  | cons x xs ih =>
    rw [List.map_cons]
    cases hp : p (f x)
    · rw [List.find?_cons_of_neg _ (by simp [hp]),
        List.find?_cons_of_neg xs (show ¬((fun a => p (f a)) x = true) by simp [hp]),
        ih]
    · rw [List.find?_cons_of_pos _ hp,
        List.find?_cons_of_pos xs (show (fun a => p (f a)) x = true from hp)]
      rfl

lemma find?_filter_ne {q : String → Bool} {c : String} (l : List String)
    (hc : q c = false) :
    (l.filter (fun d => d ≠ c)).find? q = l.find? q := by
  induction l with
  | nil => rfl
  | cons x xs ih =>
    rw [List.filter_cons]
    by_cases e : x = c
    · subst e
      rw [if_neg (by simp), ih, List.find?_cons_of_neg _ (by simp [hc])]
    · rw [if_pos (by simp [e])]
      cases hx : q x
      · rw [List.find?_cons_of_neg _ (by simp [hx]),
          List.find?_cons_of_neg _ (by simp [hx]), ih]
      · rw [List.find?_cons_of_pos _ hx, List.find?_cons_of_pos _ hx]

lemma find?_uniquesInOrder (q : String → Bool) (l : List String) :
    (uniquesInOrder l).find? q = l.find? q := by
  induction l with
  | nil => rfl
  | cons c cs ih =>
    unfold uniquesInOrder
    cases hc : q c
    · rw [List.find?_cons_of_neg _ (by simp [hc]),
        List.find?_cons_of_neg _ (by simp [hc]), find?_filter_ne _ hc, ih]
    · rw [List.find?_cons_of_pos _ hc, List.find?_cons_of_pos _ hc]

lemma mem_uniquesInOrder (x : String) (l : List String) :
    x ∈ uniquesInOrder l ↔ x ∈ l := by
  induction l with
  | nil => simp [uniquesInOrder]
  | cons c cs ih =>
    unfold uniquesInOrder
    by_cases e : x = c <;> simp [List.mem_filter, ih, e]

lemma maxSnd_cons (p : String × Nat) (l : List (String × Nat)) :
    maxSnd (p :: l) = max p.2 (maxSnd l) := by
  unfold maxSnd
  rw [List.map_cons, natMax_cons]

lemma ltCnt_asymm : ∀ a b : String × Nat,
    (fun a b : String × Nat => decide (b.2 < a.2)) a b = true →
    (fun a b : String × Nat => decide (b.2 < a.2)) b a = false := by
  intro a b h
  simp only [decide_eq_true_eq] at h
  simpa using Nat.lt_asymm h

lemma ltCnt_trans : ∀ a b c : String × Nat,
    (fun a b : String × Nat => decide (b.2 < a.2)) b a = false →
    (fun a b : String × Nat => decide (b.2 < a.2)) c b = false →
    (fun a b : String × Nat => decide (b.2 < a.2)) c a = false := by
  intro a b c h1 h2
  simp only [decide_eq_false_iff_not, Nat.not_lt] at h1 h2 ⊢
  exact le_trans h2 h1

lemma head?_isortBy_countDesc (l : List (String × Nat)) :
    (isortBy (fun a b : String × Nat => decide (b.2 < a.2)) l).head? =
      l.find? (fun p => p.2 = maxSnd l) := by
  induction l with
  | nil => rfl
  | cons p ps ih =>
    unfold isortBy
    cases hs : isortBy (fun a b : String × Nat => decide (b.2 < a.2)) ps with
    | nil =>
      have hps : ps = [] := by
        have hl := (isortBy_perm
          (fun a b : String × Nat => decide (b.2 < a.2)) ps).length_eq
        rw [hs] at hl
        exact List.length_eq_zero.mp hl.symm
      subst hps
      simp [insertBy, maxSnd, natMax]
    | cons q qs =>
      have ihq : List.find? (fun x => decide (x.2 = maxSnd ps)) ps = some q := by
        rw [← ih, hs]
        rfl
      have hq2 : q.2 = maxSnd ps := by
        have := List.find?_some ihq
        simpa using this
      unfold insertBy
      by_cases hqp : p.2 < q.2
      · rw [if_pos (decide_eq_true hqp), List.head?_cons]
        have hmax : maxSnd (p :: ps) = maxSnd ps := by
          rw [maxSnd_cons]
          exact max_eq_right (le_of_lt (hq2 ▸ hqp))
        rw [hmax, List.find?_cons_of_neg _
          (by simp; exact Nat.ne_of_lt (hq2 ▸ hqp))]
        exact ihq.symm
      · rw [if_neg (by simp [hqp]), List.head?_cons]
        have hle : maxSnd ps ≤ p.2 := by
          rw [← hq2]
          exact Nat.le_of_not_lt hqp
        have hmax : maxSnd (p :: ps) = p.2 := by
          rw [maxSnd_cons]
          exact max_eq_left hle
        rw [hmax, List.find?_cons_of_pos _ (by simp)]

lemma maxSnd_value_counts (cats : List String) :
    maxSnd (value_counts cats) =
      maxSnd ((uniquesInOrder cats).map (fun c => (c, countOf c cats))) := by
  unfold maxSnd
  refine natMax_eq_of_mem_iff ?_
  intro x
  constructor
  · intro hx
    exact (List.Perm.map Prod.snd (isortBy_perm _ _)).mem_iff.mp hx
  · intro hx
    exact (List.Perm.map Prod.snd (isortBy_perm _ _)).mem_iff.mpr hx

lemma maxSnd_series_eq_spec (cats : List String) :
    maxSnd ((uniquesInOrder cats).map (fun c => (c, countOf c cats))) =
      natMax (cats.map (fun c => countOf c cats)) := by
  unfold maxSnd
  rw [List.map_map]
  refine natMax_eq_of_mem_iff ?_
  intro x
  simp only [List.mem_map, Function.comp_apply, mem_uniquesInOrder]

lemma value_counts_sorted (cats : List String) :
    List.Pairwise (fun a b : String × Nat =>
      (fun a b : String × Nat => decide (b.2 < a.2)) b a = false)
      (value_counts cats) :=
  isortBy_pairwise _ ltCnt_asymm ltCnt_trans _

lemma find?_max_eq_head? (s : List (String × Nat))
    (hsorted : List.Pairwise (fun a b : String × Nat =>
      (fun a b : String × Nat => decide (b.2 < a.2)) b a = false) s)
    (hne : s ≠ []) :
    s.find? (fun p => p.2 = maxSnd s) = s.head? := by
  cases s with
  | nil => exact absurd rfl hne
  | cons h t =>
    have hmem : maxSnd (h :: t) ∈ (h :: t).map Prod.snd :=
      natMax_mem _ (by simp)
    have hub : ∀ z ∈ t, z.2 ≤ h.2 := by
      intro z hz
      have := (List.pairwise_cons.mp hsorted).1 z hz
      simpa using this
    have hhead : h.2 = maxSnd (h :: t) := by
      refine le_antisymm (le_natMax _ _ (by simp)) ?_
      rcases List.mem_map.mp hmem with ⟨z, hz, hz2⟩
      rcases List.mem_cons.mp hz with e | e
      · rw [← hz2, e]
      · rw [← hz2]
        exact hub z e
    rw [List.find?_cons_of_pos _ (by simpa using hhead), List.head?_cons]

lemma most_common_eq_find? (cats : List String) (hne : cats ≠ []) :
    series_idxmax? (value_counts cats) =
      cats.find? (fun c =>
        countOf c cats = natMax (cats.map (fun c' => countOf c' cats))) := by
  have hne' : value_counts cats ≠ [] := by
    intro h
    have hl := (isortBy_perm (fun a b : String × Nat => decide (b.2 < a.2))
      ((uniquesInOrder cats).map (fun c => (c, countOf c cats)))).length_eq
    rw [show isortBy (fun a b : String × Nat => decide (b.2 < a.2))
        ((uniquesInOrder cats).map (fun c => (c, countOf c cats)))
      = value_counts cats from rfl, h] at hl
    cases cats with
    | nil => exact hne rfl
    | cons c cs => simp [uniquesInOrder] at hl
  have h3 : (value_counts cats).head? =
      ((uniquesInOrder cats).map (fun c => (c, countOf c cats))).find?
        (fun p => p.2 =
          maxSnd ((uniquesInOrder cats).map (fun c => (c, countOf c cats)))) :=
    head?_isortBy_countDesc _
  have h4 : ((uniquesInOrder cats).map (fun c => (c, countOf c cats))).find?
        (fun p => p.2 =
          maxSnd ((uniquesInOrder cats).map (fun c => (c, countOf c cats))))
      = Option.map (fun c => (c, countOf c cats))
          ((uniquesInOrder cats).find? (fun c => countOf c cats =
            maxSnd ((uniquesInOrder cats).map (fun c' => (c', countOf c' cats))))) :=
    find?_map_eq _ _ _
  unfold series_idxmax?
  rw [find?_max_eq_head? _ (value_counts_sorted cats) hne', h3, h4]
  cases h5 : (uniquesInOrder cats).find? (fun c => countOf c cats =
      maxSnd ((uniquesInOrder cats).map (fun c' => (c', countOf c' cats)))) with
  | none =>
    have h6 : cats.find? (fun c => countOf c cats =
        natMax (cats.map (fun c' => countOf c' cats))) = none := by
      rw [← find?_uniquesInOrder, ← maxSnd_series_eq_spec]
      exact h5
    rw [h6]
    rfl
  | some c =>
    have h6 : cats.find? (fun c' => countOf c' cats =
        natMax (cats.map (fun c'' => countOf c'' cats))) = some c := by
      rw [← find?_uniquesInOrder, ← maxSnd_series_eq_spec]
      exact h5
    rw [h6]
    rfl

lemma find?_decomp {α : Type} {p : α → Bool} {l : List α} {a : α}
    (h : l.find? p = some a) :
    ∃ l1 l2, l = l1 ++ a :: l2 ∧ (∀ x ∈ l1, p x = false) ∧ p a = true := by
  induction l with
  | nil => cases h
  | cons x xs ih =>
    cases hp : p x
    · rw [List.find?_cons_of_neg _ (by simp [hp])] at h
      obtain ⟨l1, l2, e, hall, ha⟩ := ih h
      refine ⟨x :: l1, l2, by rw [e, List.cons_append], ?_, ha⟩
      intro y hy
      rcases List.mem_cons.mp hy with rfl | hy
      · exact hp
      · exact hall y hy
    · rw [List.find?_cons_of_pos _ hp] at h
      rw [Option.some.injEq] at h
      subst h
      exact ⟨[], xs, rfl, by simp, hp⟩

lemma stats_fields (df : List Item) (hne : df ≠ []) :
    (calculate_summary_stats df).most_expensive
      = df.find? (fun it => it.soldPrice == seriesMax (df.map Item.soldPrice)) ∧
    (calculate_summary_stats df).cheapest
      = df.find? (fun it => it.soldPrice == seriesMin (df.map Item.soldPrice)) ∧
    (calculate_summary_stats df).most_common_category
      = (series_idxmax? (value_counts (df.map Item.category))).getD "N/A" ∧
    (calculate_summary_stats df).max_price = seriesMax (df.map Item.soldPrice) ∧
    (calculate_summary_stats df).min_price = seriesMin (df.map Item.soldPrice) := by
  have he : df.isEmpty = false := by
    cases df with
    | nil => exact absurd rfl hne
    | cons x xs => rfl
  simp [calculate_summary_stats, he]

/-- C4: on every non-empty subset, the most-expensive (resp. cheapest) entry
is the first item in table order attaining the maximal (resp. minimal)
soldPrice, that price equals the reported max (resp. min) over the subset,
and the modal category is the first category in table iteration order whose
occurrence count is maximal. -/
theorem C4_summary_extremes_and_mode (df : List Item) (hne : df ≠ []) :
    (∃ pre mx post, df = pre ++ mx :: post ∧
      (calculate_summary_stats df).most_expensive = some mx ∧
      (calculate_summary_stats df).max_price = mx.soldPrice ∧
      (∀ y ∈ df, y.soldPrice ≤ mx.soldPrice) ∧
      (∀ y ∈ pre, y.soldPrice < mx.soldPrice)) ∧
    (∃ pre mn post, df = pre ++ mn :: post ∧
      (calculate_summary_stats df).cheapest = some mn ∧
      (calculate_summary_stats df).min_price = mn.soldPrice ∧
      (∀ y ∈ df, mn.soldPrice ≤ y.soldPrice) ∧
      (∀ y ∈ pre, mn.soldPrice < y.soldPrice)) ∧
    (∃ cpre c cpost, df.map Item.category = cpre ++ c :: cpost ∧
      (calculate_summary_stats df).most_common_category = c ∧
      countOf c (df.map Item.category)
        = natMax ((df.map Item.category).map
            (fun c' => countOf c' (df.map Item.category))) ∧
      (∀ c' ∈ cpre, countOf c' (df.map Item.category)
        < countOf c (df.map Item.category))) := by
  obtain ⟨hme, hch, hmc, hmaxp, hminp⟩ := stats_fields df hne
  refine ⟨?_, ?_, ?_⟩
  · -- most expensive
    have hmapne : df.map Item.soldPrice ≠ [] := by
      cases df with
      | nil => exact absurd rfl hne
      | cons x xs => simp
    obtain ⟨mx0, hmx0, hmx0p⟩ :=
      List.mem_map.mp (seriesMax_mem (df.map Item.soldPrice) hmapne)
    cases hf : df.find?
        (fun it => it.soldPrice == seriesMax (df.map Item.soldPrice)) with
    | none =>
      rw [List.find?_eq_none] at hf
      exact absurd (by simp [hmx0p]) (hf mx0 hmx0)
    | some mx =>
      obtain ⟨pre, post, hdf, hpre, hmx⟩ := find?_decomp hf
      have hmxp : mx.soldPrice = seriesMax (df.map Item.soldPrice) := by
        simpa using hmx
      refine ⟨pre, mx, post, hdf, by rw [hme, hf], by rw [hmaxp, hmxp], ?_, ?_⟩
      · intro y hy
        rw [hmxp]
        exact le_seriesMax _ _ (List.mem_map.mpr ⟨y, hy, rfl⟩)
      · intro y hy
        have hy' : y ∈ df := by
          rw [hdf]
          exact List.mem_append.mpr (Or.inl hy)
        have hle : y.soldPrice ≤ mx.soldPrice := by
          rw [hmxp]
          exact le_seriesMax _ _ (List.mem_map.mpr ⟨y, hy', rfl⟩)
        have hneq : y.soldPrice ≠ mx.soldPrice := by
          have := hpre y hy
          simp only [beq_eq_false_iff_ne, ne_eq] at this
          rw [hmxp]
          exact this
        exact lt_of_le_of_ne hle hneq
  · -- cheapest
    have hmapne : df.map Item.soldPrice ≠ [] := by
      cases df with
      | nil => exact absurd rfl hne
      | cons x xs => simp
    obtain ⟨mn0, hmn0, hmn0p⟩ :=
      List.mem_map.mp (seriesMin_mem (df.map Item.soldPrice) hmapne)
    cases hf : df.find?
        (fun it => it.soldPrice == seriesMin (df.map Item.soldPrice)) with
    | none =>
      rw [List.find?_eq_none] at hf
      exact absurd (by simp [hmn0p]) (hf mn0 hmn0)
    | some mn =>
      obtain ⟨pre, post, hdf, hpre, hmn⟩ := find?_decomp hf
      have hmnp : mn.soldPrice = seriesMin (df.map Item.soldPrice) := by
        simpa using hmn
      refine ⟨pre, mn, post, hdf, by rw [hch, hf], by rw [hminp, hmnp], ?_, ?_⟩
      · intro y hy
        rw [hmnp]
        exact seriesMin_le _ _ (List.mem_map.mpr ⟨y, hy, rfl⟩)
      · intro y hy
        have hy' : y ∈ df := by
          rw [hdf]
          exact List.mem_append.mpr (Or.inl hy)
        have hle : mn.soldPrice ≤ y.soldPrice := by
          rw [hmnp]
          exact seriesMin_le _ _ (List.mem_map.mpr ⟨y, hy', rfl⟩)
        have hneq : mn.soldPrice ≠ y.soldPrice := by
          have := hpre y hy
          simp only [beq_eq_false_iff_ne, ne_eq] at this
          rw [hmnp]
          exact fun e => this e.symm
        exact lt_of_le_of_ne hle hneq
  · -- modal category
    have hcatne : df.map Item.category ≠ [] := by
      cases df with
      | nil => exact absurd rfl hne
      | cons x xs => simp
    have hmost := most_common_eq_find? (df.map Item.category) hcatne
    obtain ⟨c0, hc0, hc0p⟩ := List.mem_map.mp
      (natMax_mem ((df.map Item.category).map
        (fun c' => countOf c' (df.map Item.category)))
        (by
          cases hdm : df.map Item.category with
          | nil => exact absurd hdm hcatne
          | cons x xs => simp))
    cases hf : (df.map Item.category).find? (fun c =>
        countOf c (df.map Item.category)
          = natMax ((df.map Item.category).map
              (fun c' => countOf c' (df.map Item.category)))) with
    | none =>
      rw [List.find?_eq_none] at hf
      exact absurd (by simp [hc0p]) (hf c0 hc0)
    | some c =>
      obtain ⟨cpre, cpost, hdf, hpre, hc⟩ := find?_decomp hf
      have hcm : countOf c (df.map Item.category)
          = natMax ((df.map Item.category).map
              (fun c' => countOf c' (df.map Item.category))) := by
        simpa using hc
      refine ⟨cpre, c, cpost, hdf, ?_, hcm, ?_⟩
      · rw [hmc, hmost, hf]
        rfl
      · intro c' hc'
        have hc'' : c' ∈ df.map Item.category := by
          rw [hdf]
          exact List.mem_append.mpr (Or.inl hc')
        have hle : countOf c' (df.map Item.category)
            ≤ countOf c (df.map Item.category) := by
          rw [hcm]
          exact le_natMax _ _ (List.mem_map.mpr ⟨c', hc'', rfl⟩)
        have hneq : countOf c' (df.map Item.category)
            ≠ countOf c (df.map Item.category) := by
          have := hpre c' hc'
          simp only [decide_eq_false_iff_not] at this
          rw [hcm]
          exact this
        exact lt_of_le_of_ne hle hneq

/-- Witness for C4 on a concrete three-item table. -/
theorem C4_summary_extremes_and_mode_witness :
    ([itemA, itemB, itemC] : List Item) ≠ [] ∧
    ((∃ pre mx post, [itemA, itemB, itemC] = pre ++ mx :: post ∧
      (calculate_summary_stats [itemA, itemB, itemC]).most_expensive = some mx ∧
      (calculate_summary_stats [itemA, itemB, itemC]).max_price = mx.soldPrice ∧
      (∀ y ∈ [itemA, itemB, itemC], y.soldPrice ≤ mx.soldPrice) ∧
      (∀ y ∈ pre, y.soldPrice < mx.soldPrice)) ∧
    (∃ pre mn post, [itemA, itemB, itemC] = pre ++ mn :: post ∧
      (calculate_summary_stats [itemA, itemB, itemC]).cheapest = some mn ∧
      (calculate_summary_stats [itemA, itemB, itemC]).min_price = mn.soldPrice ∧
      (∀ y ∈ [itemA, itemB, itemC], mn.soldPrice ≤ y.soldPrice) ∧
      (∀ y ∈ pre, mn.soldPrice < y.soldPrice)) ∧
    (∃ cpre c cpost,
      ([itemA, itemB, itemC] : List Item).map Item.category
        = cpre ++ c :: cpost ∧
      (calculate_summary_stats [itemA, itemB, itemC]).most_common_category = c ∧
      countOf c (([itemA, itemB, itemC] : List Item).map Item.category)
        = natMax ((([itemA, itemB, itemC] : List Item).map Item.category).map
            (fun c' => countOf c'
              (([itemA, itemB, itemC] : List Item).map Item.category))) ∧
      (∀ c' ∈ cpre,
        countOf c' (([itemA, itemB, itemC] : List Item).map Item.category)
          < countOf c (([itemA, itemB, itemC] : List Item).map Item.category)))) :=
  ⟨by simp, C4_summary_extremes_and_mode [itemA, itemB, itemC] (by simp)⟩
